import Mathlib

/-!
Verification development for `itkMultiThreaderBase.h` (ITK's multithreaded
work-dispatch core).  The repository provides the class interface with
documentation comments; the only member implemented in the header itself is
`ThreaderTypeToString`.  Definitions below are shallow embeddings: members
whose bodies appear in the header are translated directly; members that are
only declared are modelled either from the contract stated in the header's
own documentation comments (cited by line) or, where the header is silent,
from the specification (marked `Modelled from the spec:`).
-/

namespace ITKMT

/-- Embedding of `enum ThreaderType { Platform = 0, First = Platform, Pool,
TBB, Last = TBB, Unknown = -1 }` (header line 102).  `First` and `Last` are
aliases of `Platform` and `TBB` respectively and so are not separate
constructors. -/
inductive ThreaderType where
  | Platform
  | Pool
  | TBB
  | Unknown
deriving DecidableEq

/-- Embedding of `MultiThreaderBase::ThreaderTypeToString` (header lines
108-125): `Platform`, `Pool` and `TBB` map to their own names, everything
else (the `default` branch, hence `Unknown`) to `"Unknown"`. -/
def ThreaderTypeToString : ThreaderType → String
  | .Platform => "Platform"
  | .Pool => "Pool"
  | .TBB => "TBB"
  | .Unknown => "Unknown"

/-- Modelled from the spec: `ThreaderTypeFromString` is declared at header
line 105 but its body is not part of the analyzed sources.  The spec requires
the enum/string conversion to round-trip for the recognized backend names;
the canonical strings of the in-source `ThreaderTypeToString` are
`"Platform"`, `"Pool"` and `"TBB"` (the spec's name `TaskLibrary` appears
nowhere in the source, which uses `TBB`).  Anything unrecognized resolves to
`Unknown`. -/
def ThreaderTypeFromString (s : String) : ThreaderType :=
  if s = "Platform" then .Platform
  else if s = "Pool" then .Pool
  else if s = "TBB" then .TBB
  else .Unknown

/-- Modelled from the spec: the platform-imposed hard ceiling on thread
counts (`ITK_MAX_THREADS`, referenced by the documentation at header lines
84-88 but defined outside the analyzed sources).  ITK fixes it at 128. -/
def ITK_MAX_THREADS : Nat := 128

/-- Clamp `v` into the closed interval `[lo, hi]` (applying the lower bound
last, as the header's documented clamps do). -/
def clampNat (v lo hi : Nat) : Nat := max lo (min v hi)

/-- Process-wide thread-count configuration (spec §3 `ThreadCountConfig`;
the statics behind `GetGlobalMaximumNumberOfThreads` and
`GetGlobalDefaultNumberOfThreads`, header lines 89-90 and 145-146). -/
structure Globals where
  globalMaximumNumberOfThreads : Nat
  globalDefaultNumberOfThreads : Nat

/-- Fresh process-wide state: the global maximum starts at the platform
ceiling `ITK_MAX_THREADS`; the global default starts at some value already
clamped to `[1, max]` (ITK derives it from the hardware concurrency, which
is outside the sources; the parameter `d` stands for that value). -/
def initGlobals (d : Nat) : Globals :=
  { globalMaximumNumberOfThreads := ITK_MAX_THREADS
    globalDefaultNumberOfThreads := clampNat d 1 ITK_MAX_THREADS }

/-- Embedding of `SetGlobalMaximumNumberOfThreads` via its documented
contract (header lines 84-88): the value "will be clamped to the range
[ 1, ITK_MAX_THREADS ]"; the body is not in the analyzed sources. -/
def SetGlobalMaximumNumberOfThreads (g : Globals) (v : Nat) : Globals :=
  { g with globalMaximumNumberOfThreads := clampNat v 1 ITK_MAX_THREADS }

/-- Embedding of `SetNumberOfThreads` via its documented contract (header
lines 78-81): the requested value "will be clamped to the range
[ 1, m_GlobalMaximumNumberOfThreads ], so the caller of this method should
check that the requested number of threads was accepted"; the body is not in
the analyzed sources.  Returns the new `m_NumberOfThreads`. -/
def SetNumberOfThreads (g : Globals) (v : Nat) : Nat :=
  clampNat v 1 g.globalMaximumNumberOfThreads

/-- Embedding of `itkGetConstMacro(NumberOfThreads, ThreadIdType)` (header
line 82): returns the stored `m_NumberOfThreads` unchanged. -/
def GetNumberOfThreads (numberOfThreads : Nat) : Nat := numberOfThreads

/-- Embedding of the execution-time clamp via its documented contract
(header lines 163-167 and 266-275): "the m_NumberOfThreads will be checked
against the current m_GlobalMaximumNumberOfThreads and clamped if necessary"
at the start of `SingleMethodExecute`. -/
def effectiveThreadCount (g : Globals) (numberOfThreads : Nat) : Nat :=
  clampNat numberOfThreads 1 g.globalMaximumNumberOfThreads

/-- Embedding of the constructor's initialization of `m_NumberOfThreads`
via its documented contract (header lines 266-275): "Its value is
initialized to m_GlobalDefaultNumberOfThreads at construction time"; the
constructor body is not in the analyzed sources. -/
def constructNumberOfThreads (g : Globals) : Nat :=
  g.globalDefaultNumberOfThreads

/-- Embedding of `SetGlobalDefaultNumberOfThreads` via its documented
contract (header lines 141-146): "It will be clamped to the range
[1, m_GlobalMaximumNumberOfThreads ]". -/
def SetGlobalDefaultNumberOfThreads (g : Globals) (v : Nat) : Globals :=
  { g with globalDefaultNumberOfThreads :=
      clampNat v 1 g.globalMaximumNumberOfThreads }

/-! ### ArrayParallelizer (spec §4.3; `ParallelizeArray`, header lines
188-193, and `ParallelizeArrayHelper`, line 250, are declared but their
bodies are not in the analyzed sources). -/

/-- Modelled from the spec: effective chunk count of `ParallelizeArray`,
`min(effective thread count, max(1, total))` (spec §4.3). -/
def numChunks (total T : Nat) : Nat := min T (max 1 total)

/-- Modelled from the spec: first index handled by chunk `i` of a balanced
partition of `[first, first + total)` into `n` chunks, earlier chunks
receiving the remainder elements (spec §4.3). -/
def chunkStart (first total n i : Nat) : Nat :=
  first + i * (total / n) + min i (total % n)

/-- Modelled from the spec: number of indices handled by chunk `i`; the
first `total % n` chunks receive one extra element (spec §4.3). -/
def chunkSize (total n i : Nat) : Nat :=
  total / n + if i < total % n then 1 else 0

/-- Modelled from the spec: the list of indices of chunk `i`, in increasing
order ("for every index in the chunk, call functor(index)", spec §4.3). -/
def chunkIndices (first total n i : Nat) : List Nat :=
  List.range' (chunkStart first total n i) (chunkSize total n i)

/-- Modelled from the spec: the indices at which `ParallelizeArray` invokes
the functor, chunk by chunk (each chunk processed by one worker). -/
def ParallelizeArrayInvocations (first lastPlus1 T : Nat) : List Nat :=
  ((List.range (numChunks (lastPlus1 - first) T)).map
    (chunkIndices first (lastPlus1 - first) (numChunks (lastPlus1 - first) T))).flatten

/-- Error taxonomy of the dispatch core (spec §7); only the synchronously
detected kinds are needed here. -/
inductive ITKError where
  | InvalidRange
  | ConfigurationError
deriving DecidableEq

/-- Modelled from the spec: `ParallelizeArray` validates its range before
any dispatch — a malformed range (`lastIndexPlus1 < firstIndex`) raises
`InvalidRange` synchronously with no work performed, an empty range is a
legal no-op, and otherwise the functor is invoked once per index of the
range across all chunks (spec §4.3, §7).  The returned list records the
functor invocations in dispatch order. -/
def ParallelizeArray (first lastPlus1 T : Nat) : Except ITKError (List Nat) :=
  if lastPlus1 < first then .error .InvalidRange
  else .ok (ParallelizeArrayInvocations first lastPlus1 T)

/-! ### SingleMethodExecutor (spec §4.2; `SingleMethodExecute` is pure
virtual at header line 167 and `SingleMethodProxy` is declared at line 283;
their bodies are not in the analyzed sources). -/

/-- Embedding of the exit-code enumeration inside `ThreadInfoStruct`
(header line 160): `enum { SUCCESS, ITK_EXCEPTION,
ITK_PROCESS_ABORTED_EXCEPTION, STD_EXCEPTION, UNKNOWN } ThreadExitCode`. -/
inductive ThreadExitCode where
  | SUCCESS
  | ITK_EXCEPTION
  | ITK_PROCESS_ABORTED_EXCEPTION
  | STD_EXCEPTION
  | UNKNOWN
deriving DecidableEq

/-- Modelled from the spec: `SingleMethodProxy` wraps each worker so that
any raised error is caught locally and classified into the worker's
`ThreadExitCode` instead of propagating (spec §4.2); a worker is therefore
represented by the classification it produces.  Running all `N` workers to
completion records one outcome per logical id `0..N-1`, in ascending id
order. -/
def runAllWorkers (N : Nat) (worker : Nat → ThreadExitCode) : List ThreadExitCode :=
  (List.range N).map worker

/-- Modelled from the spec: after all workers finish, outcomes are
inspected in ascending logical-id order and the first non-`SUCCESS`
outcome's classification is re-raised on the calling thread (spec §4.2). -/
def aggregateOutcomes : List ThreadExitCode → Except ThreadExitCode Unit
  | [] => .ok ()
  | c :: rest => if c = .SUCCESS then aggregateOutcomes rest else .error c

/-- Modelled from the spec: `SingleMethodExecute` fans out `N` workers,
blocks until all have run to completion, then aggregates their outcomes
(spec §4.2). -/
def SingleMethodExecute (N : Nat) (worker : Nat → ThreadExitCode) :
    Except ThreadExitCode Unit :=
  aggregateOutcomes (runAllWorkers N worker)

/-! ### RegionParallelizer (spec §4.4; `ParallelizeImageRegion`, header
lines 220-225, and `ParallelizeImageRegionHelper`, line 264, are declared
but their bodies are not in the analyzed sources). -/

/-- One axis of a multi-dimensional rectangular region: its starting index
and its extent (the per-axis entries of the `index[]` and `size[]` arrays
passed to `ParallelizeImageRegion`, header lines 220-225; `IndexValueType`
is signed, `SizeValueType` unsigned). -/
structure Axis where
  index : Int
  size : Nat
deriving DecidableEq

/-- A region of dimension `d` is its list of `d` axes. -/
abbrev Region := List Axis

/-- Membership of a point (one integer coordinate per axis) in a region:
the point has the region's dimension and every coordinate lies in the
half-open extent of its axis. -/
def regMem : List Int → Region → Prop
  | [], [] => True
  | x :: ps, a :: rest => (a.index ≤ x ∧ x < a.index + a.size) ∧ regMem ps rest
  | _, _ => False

/-- Number of pixels of a region: the product of all size components
(spec §3 `RegionWorkItem`). -/
def pixelCount (r : Region) : Nat := (r.map Axis.size).prod

/-- Two regions are disjoint when no point lies in both. -/
def RegionsDisjoint (a b : Region) : Prop := ∀ p, ¬(regMem p a ∧ regMem p b)

/-- All regions of a list are pairwise disjoint. -/
def PairwiseDisjoint (l : List Region) : Prop := l.Pairwise RegionsDisjoint

/-- A point lies in the union of a list of regions. -/
def memUnion (l : List Region) (p : List Int) : Prop := ∃ r ∈ l, regMem p r

/-- Modelled from the spec: choose the axis with the largest current extent
among axes whose extent is still at least 2 (spec §4.4), the earliest such
axis winning ties; returns the decomposition of the region into the axes
before it, the chosen axis, and the axes after it, or `none` when no axis
can be split. -/
def pickAxis : Region → Option (Region × Axis × Region)
  | [] => none
  | a :: rest =>
    match pickAxis rest with
    | none => if 2 ≤ a.size then some ([], a, rest) else none
    | some (r1, b, r2) =>
      if 2 ≤ a.size ∧ b.size ≤ a.size then some ([], a, rest)
      else some (a :: r1, b, r2)

/-- Extent of the axis a region would be split at, or 0 when unsplittable. -/
def regionExtent (r : Region) : Nat :=
  match pickAxis r with
  | none => 0
  | some (_, a, _) => a.size

/-- Modelled from the spec: split a region at the midpoint of its chosen
axis into two contiguous sub-regions, all other axes unchanged (spec §4.4). -/
def splitRegion (r : Region) : Option (Region × Region) :=
  match pickAxis r with
  | none => none
  | some (r1, a, r2) =>
      some (r1 ++ ⟨a.index, a.size / 2⟩ :: r2,
            r1 ++ ⟨a.index + (a.size / 2 : Nat), a.size - a.size / 2⟩ :: r2)

/-- Modelled from the spec: among the current sub-regions choose the one
carrying the overall largest splittable extent (spec §4.4: "pick the axis
with the largest current extent among axes whose extent is still ≥ 2"),
the earliest winning ties; returns its decomposition in the work list, or
`none` when no region can be split further. -/
def pickRegion : List Region → Option (List Region × Region × List Region)
  | [] => none
  | r :: rest =>
    match pickRegion rest with
    | none => if 2 ≤ regionExtent r then some ([], r, rest) else none
    | some (l1, x, l2) =>
      if 2 ≤ regionExtent r ∧ regionExtent x ≤ regionExtent r then some ([], r, rest)
      else some (r :: l1, x, l2)

/-- Modelled from the spec: greedy longest-axis bisection — repeatedly
replace the sub-region with the largest splittable extent by its two
halves, until the number of sub-regions reaches the target or no axis can
be split further (spec §4.4).  The fuel argument bounds the number of
bisections; each bisection grows the list by one, so fuel equal to the
target is always sufficient. -/
def splitRegions : Nat → Nat → List Region → List Region
  | 0, _, l => l
  | fuel + 1, target, l =>
      if target ≤ l.length then l
      else
        match pickRegion l with
        | none => l
        | some (l1, x, l2) =>
          match splitRegion x with
          | none => l
          | some (lo, hi) => splitRegions fuel target (l1 ++ lo :: hi :: l2)

/-- Modelled from the spec: the sub-regions `ParallelizeImageRegion`
produces for a region and an effective thread count, each of which is then
handed to the functor exactly once by its worker (spec §4.4). -/
def ParallelizeImageRegionChunks (r : Region) (T : Nat) : List Region :=
  splitRegions T T [r]

/-! ### Progress reporting (spec §4.3, §5; `ArrayCallback` and
`RegionAndCallback`, header lines 240-248 and 252-262, declare the shared
atomic progress counters and the calling-thread identity). -/

/-- Modelled from the spec: the sequence of values taken by the shared
atomic progress counter, starting from `acc`, when the completed work units
contribute the given increments in completion order; the counter is only
ever added to (spec §3 invariant, §4.3, §4.4). -/
def progressTrace (acc : Nat) : List Nat → List Nat
  | [] => [acc]
  | i :: rest => acc :: progressTrace (acc + i) rest

/-- Modelled from the spec: the per-work-unit increments of a
`ParallelizeArray` run — each completed index adds 1 to the shared counter
(spec §4.3). -/
def arrayRunIncrements (first lastPlus1 T : Nat) : List Nat :=
  (ParallelizeArrayInvocations first lastPlus1 T).map (fun _ => 1)

/-- Modelled from the spec: the per-work-unit increments of a
`ParallelizeImageRegion` run — each completed sub-region adds its pixel
count to the shared counter (spec §4.4). -/
def regionRunIncrements (r : Region) (T : Nat) : List Nat :=
  (ParallelizeImageRegionChunks r T).map pixelCount

/-- Modelled from the spec: one worker's pass over its chunk in
`ParallelizeArray` (spec §4.3): for each index of the chunk the functor is
invoked and the shared counter incremented by one; after each of its own
elements the worker reports `progress / total` to the consumer, but only
when a consumer is present and the worker's thread identity equals the
calling thread recorded in `ArrayCallback` (header lines 240-248).
Returns the final counter value and the fractions this worker reported. -/
def ArrayWorkerRun (chunk : List Nat) (tid callingThread : Nat)
    (filterPresent : Bool) (total : Nat) (progressIn : Nat) : Nat × List ℚ :=
  match chunk with
  | [] => (progressIn, [])
  | _ :: rest =>
      ((ArrayWorkerRun rest tid callingThread filterPresent total (progressIn + 1)).1,
        (if filterPresent = true ∧ tid = callingThread
          then [((progressIn + 1 : Nat) : ℚ) / total] else [])
          ++ (ArrayWorkerRun rest tid callingThread filterPresent total (progressIn + 1)).2)

/-! ### Lemmas about the balanced array partition -/

theorem chunkStart_zero (first total n : Nat) :
    chunkStart first total n 0 = first := by
  simp [chunkStart]

theorem chunkStart_succ (first total n i : Nat) :
    chunkStart first total n (i + 1)
      = chunkStart first total n i + chunkSize total n i := by
  unfold chunkStart chunkSize
  rw [Nat.succ_mul]
  rcases Nat.lt_or_ge i (total % n) with h | h
  · simp only [if_pos h]; omega
  · simp only [if_neg (Nat.not_lt.mpr h)]; omega

theorem first_le_chunkStart (first total n k : Nat) :
    first ≤ chunkStart first total n k := by
  unfold chunkStart; omega

theorem chunks_flatten (first total n : Nat) (k : Nat) :
    ((List.range k).map (chunkIndices first total n)).flatten
      = List.range' first (chunkStart first total n k - first) := by
  induction k with
  | zero => simp [chunkStart]
  | succ k ih =>
      rw [List.range_succ, List.map_append, List.flatten_append, ih]
      simp only [List.map_cons, List.map_nil, List.flatten_cons, List.flatten_nil,
        List.append_nil]
      unfold chunkIndices
      have h1 : first ≤ chunkStart first total n k := first_le_chunkStart ..
      have key := List.range'_append_1 first (chunkStart first total n k - first)
        (chunkSize total n k)
      rw [(by omega : first + (chunkStart first total n k - first)
        = chunkStart first total n k)] at key
      rw [key]
      congr 1
      have h2 := chunkStart_succ first total n k
      omega

theorem chunkStart_last (first total n : Nat) (hn : 0 < n) :
    chunkStart first total n n = first + total := by
  unfold chunkStart
  have hmod : total % n < n := Nat.mod_lt _ hn
  have hdm : n * (total / n) + total % n = total := Nat.div_add_mod total n
  omega

theorem numChunks_pos (total T : Nat) (hT : 1 ≤ T) :
    1 ≤ numChunks total T := by
  unfold numChunks; omega

theorem parallelizeArrayInvocations_eq_range' (first lastPlus1 T : Nat)
    (hT : 1 ≤ T) :
    ParallelizeArrayInvocations first lastPlus1 T
      = List.range' first (lastPlus1 - first) := by
  unfold ParallelizeArrayInvocations
  rw [chunks_flatten, chunkStart_last _ _ _ (numChunks_pos _ _ hT)]
  congr 1
  omega

theorem parallelizeArrayInvocations_empty (first T : Nat) :
    ParallelizeArrayInvocations first first T = [] := by
  simp only [ParallelizeArrayInvocations, chunkIndices, chunkSize, Nat.sub_self,
    Nat.zero_div, Nat.zero_mod, Nat.not_lt_zero, if_false, Nat.add_zero,
    List.range'_zero]
  simp only [List.flatten_eq_nil_iff, List.mem_map, List.mem_range]
  intro l hl
  obtain ⟨i, _, rfl⟩ := hl
  simp [chunkIndices, chunkSize]

/-! ### Lemmas about outcome aggregation -/

theorem aggregateOutcomes_first_failure (l : List ThreadExitCode)
    (h : ∃ c ∈ l, c ≠ ThreadExitCode.SUCCESS) :
    ∃ i, i < l.length ∧ l.getD i .SUCCESS ≠ .SUCCESS
      ∧ (∀ j, j < i → l.getD j .SUCCESS = .SUCCESS)
      ∧ aggregateOutcomes l = .error (l.getD i .SUCCESS) := by
  induction l with
  | nil => simp at h
  | cons c rest ih =>
      by_cases hc : c = ThreadExitCode.SUCCESS
      · subst hc
        have h' : ∃ x ∈ rest, x ≠ ThreadExitCode.SUCCESS := by
          rcases h with ⟨x, hx, hxne⟩
          rcases List.mem_cons.mp hx with rfl | hx'
          · exact absurd rfl hxne
          · exact ⟨x, hx', hxne⟩
        obtain ⟨i, hi, hne, hpre, hagg⟩ := ih h'
        refine ⟨i + 1, by simpa using Nat.succ_lt_succ hi, by simpa using hne, ?_, ?_⟩
        · intro j hj
          cases j with
          | zero => simp
          | succ j => simpa using hpre j (Nat.lt_of_succ_lt_succ hj)
        · simpa [aggregateOutcomes] using hagg
      · exact ⟨0, by simp, by simpa using hc, by intro j hj; omega,
          by simp [aggregateOutcomes, hc]⟩

theorem runAllWorkers_getD (N : Nat) (worker : Nat → ThreadExitCode)
    (i : Nat) (hi : i < N) :
    (runAllWorkers N worker).getD i .SUCCESS = worker i := by
  have hlen : i < (runAllWorkers N worker).length := by
    simp [runAllWorkers, hi]
  rw [List.getD_eq_getElem _ _ hlen]
  simp [runAllWorkers]

/-! ### Lemmas about the greedy longest-axis bisection -/

theorem pickAxis_eq : ∀ (r r1 : Region) (a : Axis) (r2 : Region),
    pickAxis r = some (r1, a, r2) → r = r1 ++ a :: r2 ∧ 2 ≤ a.size := by
  intro r
  induction r with
  | nil => intro r1 a r2 h; cases h
  | cons b rest ih =>
      intro r1 a r2 h
      cases hr : pickAxis rest with
      | none =>
          simp only [pickAxis, hr] at h
          by_cases hb : 2 ≤ b.size
          · rw [if_pos hb] at h
            simp only [Option.some.injEq, Prod.mk.injEq] at h
            obtain ⟨h1, h2, h3⟩ := h
            subst h1; subst h2; subst h3
            exact ⟨rfl, hb⟩
          · rw [if_neg hb] at h; cases h
      | some t =>
          obtain ⟨s1, c, s2⟩ := t
          simp only [pickAxis, hr] at h
          by_cases hb : 2 ≤ b.size ∧ c.size ≤ b.size
          · rw [if_pos hb] at h
            simp only [Option.some.injEq, Prod.mk.injEq] at h
            obtain ⟨h1, h2, h3⟩ := h
            subst h1; subst h2; subst h3
            exact ⟨rfl, hb.1⟩
          · rw [if_neg hb] at h
            simp only [Option.some.injEq, Prod.mk.injEq] at h
            obtain ⟨h1, h2, h3⟩ := h
            obtain ⟨he, hs⟩ := ih s1 c s2 hr
            subst h1; subst h2; subst h3
            exact ⟨by rw [he]; simp, hs⟩

theorem regMem_split (r1 : Region) (a : Axis) (r2 : Region) (p : List Int) :
    regMem p (r1 ++ a :: r2)
      ↔ (regMem p (r1 ++ ⟨a.index, a.size / 2⟩ :: r2)
         ∨ regMem p (r1 ++ ⟨a.index + (a.size / 2 : Nat), a.size - a.size / 2⟩ :: r2)) := by
  induction r1 generalizing p with
  | nil =>
      cases p with
      | nil => simp [regMem]
      | cons x ps =>
          show ((a.index ≤ x ∧ x < a.index + a.size) ∧ regMem ps r2) ↔ _
          have hax : (a.index ≤ x ∧ x < a.index + a.size)
              ↔ ((a.index ≤ x ∧ x < a.index + (a.size / 2 : Nat))
                 ∨ (a.index + (a.size / 2 : Nat) ≤ x
                    ∧ x < a.index + (a.size / 2 : Nat) + (a.size - a.size / 2 : Nat))) := by
            omega
          constructor
          · rintro ⟨hx, hmem⟩
            rcases hax.mp hx with h | h
            · exact Or.inl ⟨h, hmem⟩
            · exact Or.inr ⟨by push_cast; push_cast at h; constructor <;> omega, hmem⟩
          · rintro (⟨hx, hmem⟩ | ⟨hx, hmem⟩)
            · exact ⟨hax.mpr (Or.inl hx), hmem⟩
            · refine ⟨hax.mpr (Or.inr ?_), hmem⟩
              push_cast at hx ⊢
              constructor <;> omega
  | cons b rest ih =>
      cases p with
      | nil => simp [regMem]
      | cons x ps =>
          show (_ ∧ regMem ps (rest ++ a :: r2)) ↔ _
          rw [ih ps]
          show _ ↔ ((_ ∧ regMem ps (rest ++ _ :: r2)) ∨ (_ ∧ regMem ps (rest ++ _ :: r2)))
          tauto

theorem regMem_split_disjoint (r1 : Region) (a : Axis) (r2 : Region) (p : List Int) :
    ¬(regMem p (r1 ++ ⟨a.index, a.size / 2⟩ :: r2)
      ∧ regMem p (r1 ++ ⟨a.index + (a.size / 2 : Nat), a.size - a.size / 2⟩ :: r2)) := by
  induction r1 generalizing p with
  | nil =>
      cases p with
      | nil => simp [regMem]
      | cons x ps =>
          rintro ⟨⟨⟨_, hlt⟩, _⟩, ⟨⟨hge, _⟩, _⟩⟩
          simp only at hlt hge
          omega
  | cons b rest ih =>
      cases p with
      | nil => simp [regMem]
      | cons x ps =>
          rintro ⟨⟨_, hlo⟩, ⟨_, hhi⟩⟩
          exact ih ps ⟨hlo, hhi⟩

theorem pixelCount_split (r1 : Region) (a : Axis) (r2 : Region) :
    pixelCount (r1 ++ ⟨a.index, a.size / 2⟩ :: r2)
      + pixelCount (r1 ++ ⟨a.index + (a.size / 2 : Nat), a.size - a.size / 2⟩ :: r2)
    = pixelCount (r1 ++ a :: r2) := by
  induction r1 with
  | nil =>
      simp only [pixelCount, List.nil_append, List.map_cons, List.prod_cons]
      rw [← Nat.add_mul]
      congr 1
      omega
  | cons b rest ih =>
      simp only [pixelCount, List.cons_append, List.map_cons, List.prod_cons] at ih ⊢
      rw [← Nat.mul_add, ih]

theorem pickRegion_eq : ∀ (l l1 : List Region) (x : Region) (l2 : List Region),
    pickRegion l = some (l1, x, l2) → l = l1 ++ x :: l2 := by
  intro l
  induction l with
  | nil => intro l1 x l2 h; cases h
  | cons r rest ih =>
      intro l1 x l2 h
      cases hr : pickRegion rest with
      | none =>
          simp only [pickRegion, hr] at h
          by_cases hb : 2 ≤ regionExtent r
          · rw [if_pos hb] at h
            simp only [Option.some.injEq, Prod.mk.injEq] at h
            obtain ⟨h1, h2, h3⟩ := h
            subst h1; subst h2; subst h3
            rfl
          · rw [if_neg hb] at h; cases h
      | some t =>
          obtain ⟨s1, y, s2⟩ := t
          simp only [pickRegion, hr] at h
          by_cases hb : 2 ≤ regionExtent r ∧ regionExtent y ≤ regionExtent r
          · rw [if_pos hb] at h
            simp only [Option.some.injEq, Prod.mk.injEq] at h
            obtain ⟨h1, h2, h3⟩ := h
            subst h1; subst h2; subst h3
            rfl
          · rw [if_neg hb] at h
            simp only [Option.some.injEq, Prod.mk.injEq] at h
            obtain ⟨h1, h2, h3⟩ := h
            have he := ih s1 y s2 hr
            subst h1; subst h2; subst h3
            rw [he]
            rfl

theorem splitRegion_spec (x lo hi : Region) (h : splitRegion x = some (lo, hi)) :
    (∀ p, regMem p x ↔ (regMem p lo ∨ regMem p hi))
    ∧ RegionsDisjoint lo hi
    ∧ pixelCount lo + pixelCount hi = pixelCount x := by
  unfold splitRegion at h
  cases hp : pickAxis x with
  | none => rw [hp] at h; cases h
  | some t =>
      obtain ⟨r1, a, r2⟩ := t
      rw [hp] at h
      simp only [Option.some.injEq, Prod.mk.injEq] at h
      obtain ⟨h1, h2⟩ := h
      obtain ⟨hx, _⟩ := pickAxis_eq x r1 a r2 hp
      subst h1; subst h2; subst hx
      exact ⟨fun p => regMem_split r1 a r2 p,
        fun p => regMem_split_disjoint r1 a r2 p,
        pixelCount_split r1 a r2⟩

theorem memUnion_replace (l1 l2 : List Region) (x lo hi : Region)
    (hmem : ∀ p, regMem p x ↔ (regMem p lo ∨ regMem p hi)) (p : List Int) :
    memUnion (l1 ++ lo :: hi :: l2) p ↔ memUnion (l1 ++ x :: l2) p := by
  unfold memUnion
  simp only [List.mem_append, List.mem_cons]
  constructor
  · rintro ⟨r, hr, hp⟩
    rcases hr with hr | hr | hr | hr
    · exact ⟨r, Or.inl hr, hp⟩
    · exact ⟨x, Or.inr (Or.inl rfl), (hmem p).mpr (Or.inl (hr ▸ hp))⟩
    · exact ⟨x, Or.inr (Or.inl rfl), (hmem p).mpr (Or.inr (hr ▸ hp))⟩
    · exact ⟨r, Or.inr (Or.inr hr), hp⟩
  · rintro ⟨r, hr, hp⟩
    rcases hr with hr | hr | hr
    · exact ⟨r, Or.inl hr, hp⟩
    · rcases (hmem p).mp (hr ▸ hp) with h | h
      · exact ⟨lo, Or.inr (Or.inl rfl), h⟩
      · exact ⟨hi, Or.inr (Or.inr (Or.inl rfl)), h⟩
    · exact ⟨r, Or.inr (Or.inr (Or.inr hr)), hp⟩

theorem pairwiseDisjoint_replace (l1 l2 : List Region) (x lo hi : Region)
    (hlo : ∀ p, regMem p lo → regMem p x)
    (hhi : ∀ p, regMem p hi → regMem p x)
    (hdisj : RegionsDisjoint lo hi)
    (h : PairwiseDisjoint (l1 ++ x :: l2)) :
    PairwiseDisjoint (l1 ++ lo :: hi :: l2) := by
  unfold PairwiseDisjoint at *
  rw [List.pairwise_append] at h ⊢
  obtain ⟨hp1, hp2, hcross⟩ := h
  rw [List.pairwise_cons] at hp2
  obtain ⟨hx2, hp2'⟩ := hp2
  refine ⟨hp1, ?_, ?_⟩
  · rw [List.pairwise_cons]
    refine ⟨?_, ?_⟩
    · intro b hb
      rcases List.mem_cons.mp hb with rfl | hb'
      · exact hdisj
      · exact fun p hp => hx2 b hb' p ⟨hlo p hp.1, hp.2⟩
    · rw [List.pairwise_cons]
      exact ⟨fun b hb p hp => hx2 b hb p ⟨hhi p hp.1, hp.2⟩, hp2'⟩
  · intro a ha b hb
    rcases List.mem_cons.mp hb with rfl | hb'
    · exact fun p hp => hcross a ha x (List.mem_cons_self _ _) p ⟨hp.1, hlo p hp.2⟩
    · rcases List.mem_cons.mp hb' with rfl | hb''
      · exact fun p hp => hcross a ha x (List.mem_cons_self _ _) p ⟨hp.1, hhi p hp.2⟩
      · exact hcross a ha b (List.mem_cons_of_mem _ hb'')

theorem splitRegions_invariants (fuel target : Nat) :
    ∀ l : List Region,
      (∀ p, memUnion (splitRegions fuel target l) p ↔ memUnion l p)
      ∧ (PairwiseDisjoint l → PairwiseDisjoint (splitRegions fuel target l))
      ∧ ((splitRegions fuel target l).map pixelCount).sum = (l.map pixelCount).sum := by
  induction fuel with
  | zero =>
      intro l
      exact ⟨fun p => Iff.rfl, id, rfl⟩
  | succ fuel ih =>
      intro l
      show (∀ p, memUnion (splitRegions (fuel + 1) target l) p ↔ memUnion l p) ∧ _
      unfold splitRegions
      by_cases hlen : target ≤ l.length
      · rw [if_pos hlen]
        exact ⟨fun p => Iff.rfl, id, rfl⟩
      · rw [if_neg hlen]
        cases hpick : pickRegion l with
        | none => exact ⟨fun p => Iff.rfl, id, rfl⟩
        | some t =>
            obtain ⟨l1, x, l2⟩ := t
            dsimp only
            cases hsplit : splitRegion x with
            | none => exact ⟨fun p => Iff.rfl, id, rfl⟩
            | some q =>
                obtain ⟨lo, hi⟩ := q
                dsimp only
                have hl : l = l1 ++ x :: l2 := pickRegion_eq l l1 x l2 hpick
                obtain ⟨hmem, hdisj, hpix⟩ := splitRegion_spec x lo hi hsplit
                obtain ⟨ihm, ihd, ihs⟩ := ih (l1 ++ lo :: hi :: l2)
                refine ⟨?_, ?_, ?_⟩
                · intro p
                  rw [ihm p, memUnion_replace l1 l2 x lo hi hmem p, ← hl]
                · intro hpd
                  exact ihd (pairwiseDisjoint_replace l1 l2 x lo hi
                    (fun p hp => (hmem p).mpr (Or.inl hp))
                    (fun p hp => (hmem p).mpr (Or.inr hp))
                    hdisj (hl ▸ hpd))
                · rw [ihs, hl]
                  simp only [List.map_append, List.sum_append, List.map_cons, List.sum_cons]
                  omega

/-! ### Lemmas about the progress counter trace -/

theorem progressTrace_head_cons (acc : Nat) (l : List Nat) :
    ∃ t, progressTrace acc l = acc :: t := by
  cases l <;> exact ⟨_, rfl⟩

theorem progressTrace_chain (acc : Nat) (l : List Nat) :
    List.Chain' (· ≤ ·) (progressTrace acc l) := by
  induction l generalizing acc with
  | nil => simp [progressTrace]
  | cons i rest ih =>
      show List.Chain' (· ≤ ·) (acc :: progressTrace (acc + i) rest)
      rw [List.chain'_cons']
      refine ⟨?_, ih (acc + i)⟩
      intro b hb
      obtain ⟨t, ht⟩ := progressTrace_head_cons (acc + i) rest
      rw [ht] at hb
      simp only [List.head?_cons, Option.mem_def, Option.some.injEq] at hb
      omega

theorem progressTrace_le (acc : Nat) (l : List Nat) :
    ∀ p ∈ progressTrace acc l, p ≤ acc + l.sum := by
  induction l generalizing acc with
  | nil => simp [progressTrace]
  | cons i rest ih =>
      intro p hp
      simp only [progressTrace] at hp
      rcases List.mem_cons.mp hp with rfl | hp'
      · simp
      · have := ih (acc + i) p hp'
        simp only [List.sum_cons]
        omega

theorem progressTrace_getLast (acc : Nat) (l : List Nat) :
    (progressTrace acc l).getLast? = some (acc + l.sum) := by
  induction l generalizing acc with
  | nil => simp [progressTrace]
  | cons i rest ih =>
      obtain ⟨t, ht⟩ := progressTrace_head_cons (acc + i) rest
      show (acc :: progressTrace (acc + i) rest).getLast? = _
      rw [ht, List.getLast?_cons_cons, ← ht, ih]
      simp only [List.sum_cons, Option.some.injEq]
      omega

theorem progressTrace_props (incs : List Nat) (total : Nat)
    (hsum : incs.sum = total) :
    List.Chain' (· ≤ ·) (progressTrace 0 incs)
    ∧ (∀ p ∈ progressTrace 0 incs, p ≤ total)
    ∧ (progressTrace 0 incs).getLast? = some total
    ∧ (0 < total →
        List.Chain' (· ≤ ·)
          ((progressTrace 0 incs).map (fun q : Nat => (q : ℚ) / total))
        ∧ ((progressTrace 0 incs).map (fun q : Nat => (q : ℚ) / total)).getLast?
            = some 1) := by
  have hchain := progressTrace_chain 0 incs
  have hle : ∀ p ∈ progressTrace 0 incs, p ≤ total := by
    intro p hp
    have := progressTrace_le 0 incs p hp
    omega
  have hlast : (progressTrace 0 incs).getLast? = some total := by
    rw [progressTrace_getLast]
    simp [hsum]
  refine ⟨hchain, hle, hlast, ?_⟩
  intro htot
  have htq : (0 : ℚ) < total := by exact_mod_cast htot
  constructor
  · refine (List.chain'_map (fun q : Nat => (q : ℚ) / total)).mpr ?_
    refine hchain.imp ?_
    intro a b hab
    gcongr
  · have hm : ((progressTrace 0 incs).map (fun q : Nat => (q : ℚ) / total)).getLast?
        = ((progressTrace 0 incs).getLast?).map (fun q : Nat => (q : ℚ) / total) :=
      List.getLast?_map _ _
    rw [hm, hlast]
    rw [Option.map_some']
    congr 1
    exact div_self (ne_of_gt htq)

theorem arrayRunIncrements_sum (first lastPlus1 T : Nat) (hT : 1 ≤ T) :
    (arrayRunIncrements first lastPlus1 T).sum = lastPlus1 - first := by
  unfold arrayRunIncrements
  rw [parallelizeArrayInvocations_eq_range' first lastPlus1 T hT]
  simp

theorem regionRunIncrements_sum (r : Region) (T : Nat) :
    (regionRunIncrements r T).sum = pixelCount r := by
  unfold regionRunIncrements ParallelizeImageRegionChunks
  have := (splitRegions_invariants T T [r]).2.2
  rw [this]
  simp

/-! ### Lemmas about the calling-thread-only progress rule -/

theorem arrayWorkerRun_silent (chunk : List Nat) (tid ct : Nat) (fp : Bool)
    (total pIn : Nat) (h : tid ≠ ct) :
    (ArrayWorkerRun chunk tid ct fp total pIn).2 = [] := by
  induction chunk generalizing pIn with
  | nil => rfl
  | cons i rest ih =>
      show ((if fp = true ∧ tid = ct then _ else [])
        ++ (ArrayWorkerRun rest tid ct fp total (pIn + 1)).2) = []
      rw [if_neg (fun hc => h hc.2), List.nil_append]
      exact ih (pIn + 1)

/-! ### Claim theorems -/

/-- C3: whenever at least one of the `N` workers produced a non-`SUCCESS`
outcome, `SingleMethodExecute` first lets all `N` workers run to completion
(one outcome is recorded per logical id, in ascending order), then inspects
outcomes in ascending logical-id order and re-raises the first
non-`SUCCESS` outcome's classification as an error on the calling thread;
it never returns success when any worker failed. -/
theorem C3_singleMethodExecute_first_failure (N : Nat)
    (worker : Nat → ThreadExitCode)
    (h : ∃ i, i < N ∧ worker i ≠ ThreadExitCode.SUCCESS) :
    (runAllWorkers N worker).length = N
    ∧ (∀ i, i < N → (runAllWorkers N worker).getD i .SUCCESS = worker i)
    ∧ (∃ i, i < N ∧ worker i ≠ ThreadExitCode.SUCCESS
        ∧ (∀ j, j < i → worker j = ThreadExitCode.SUCCESS)
        ∧ SingleMethodExecute N worker = .error (worker i))
    ∧ SingleMethodExecute N worker ≠ .ok () := by
  have hlen : (runAllWorkers N worker).length = N := by simp [runAllWorkers]
  have hmem : ∃ c ∈ runAllWorkers N worker, c ≠ ThreadExitCode.SUCCESS := by
    obtain ⟨i, hi, hne⟩ := h
    exact ⟨worker i, List.mem_map.mpr ⟨i, List.mem_range.mpr hi, rfl⟩, hne⟩
  obtain ⟨i, hi, hne, hpre, hagg⟩ := aggregateOutcomes_first_failure _ hmem
  have hiN : i < N := hlen ▸ hi
  have hgi := runAllWorkers_getD N worker i hiN
  refine ⟨hlen, fun j hj => runAllWorkers_getD N worker j hj, ?_, ?_⟩
  · refine ⟨i, hiN, hgi ▸ hne, ?_, ?_⟩
    · intro j hj
      have := hpre j hj
      rwa [runAllWorkers_getD N worker j (Nat.lt_trans hj hiN)] at this
    · unfold SingleMethodExecute
      rw [hagg, hgi]
  · unfold SingleMethodExecute
    rw [hagg]
    simp


/-- C1: for every `firstIndex ≤ lastIndexPlus1` and effective thread count
`T ≥ 1`, `ParallelizeArray` splits `[firstIndex, lastIndexPlus1)` into
exactly `min(T, max(1, total))` contiguous, non-overlapping, gap-free chunks
whose sizes differ by at most 1 with earlier chunks receiving the remainder,
and across all chunks combined the functor is invoked exactly once for each
index of the range, with no duplicate and no omission (the invocation list
is exactly the increasing enumeration of the range). -/
theorem C1_parallelizeArray_balanced_partition (first lastPlus1 T : Nat)
    (hrange : first ≤ lastPlus1) (hT : 1 ≤ T) :
    numChunks (lastPlus1 - first) T = min T (max 1 (lastPlus1 - first))
    ∧ 1 ≤ numChunks (lastPlus1 - first) T
    ∧ (∀ i, chunkStart first (lastPlus1 - first) (numChunks (lastPlus1 - first) T) (i + 1)
        = chunkStart first (lastPlus1 - first) (numChunks (lastPlus1 - first) T) i
          + chunkSize (lastPlus1 - first) (numChunks (lastPlus1 - first) T) i)
    ∧ chunkStart first (lastPlus1 - first) (numChunks (lastPlus1 - first) T) 0 = first
    ∧ chunkStart first (lastPlus1 - first) (numChunks (lastPlus1 - first) T)
        (numChunks (lastPlus1 - first) T) = lastPlus1
    ∧ (∀ i j, i ≤ j →
        chunkSize (lastPlus1 - first) (numChunks (lastPlus1 - first) T) j
          ≤ chunkSize (lastPlus1 - first) (numChunks (lastPlus1 - first) T) i
        ∧ chunkSize (lastPlus1 - first) (numChunks (lastPlus1 - first) T) i
          ≤ chunkSize (lastPlus1 - first) (numChunks (lastPlus1 - first) T) j + 1)
    ∧ ParallelizeArrayInvocations first lastPlus1 T
        = List.range' first (lastPlus1 - first)
    ∧ (∀ x, x ∈ ParallelizeArrayInvocations first lastPlus1 T ↔ first ≤ x ∧ x < lastPlus1)
    ∧ (ParallelizeArrayInvocations first lastPlus1 T).Nodup
    ∧ (∀ x, first ≤ x → x < lastPlus1 →
        (ParallelizeArrayInvocations first lastPlus1 T).count x = 1) := by
  have heq := parallelizeArrayInvocations_eq_range' first lastPlus1 T hT
  have hpos := numChunks_pos (lastPlus1 - first) T hT
  refine ⟨rfl, hpos, fun i => chunkStart_succ .., chunkStart_zero .., ?_, ?_, heq, ?_, ?_, ?_⟩
  · rw [chunkStart_last _ _ _ hpos]; omega
  · intro i j hij
    unfold chunkSize
    split <;> split <;> omega
  · intro x
    rw [heq, List.mem_range'_1]
    omega
  · rw [heq]
    exact List.nodup_range' _ _
  · intro x h1 h2
    rw [heq]
    exact List.count_eq_one_of_mem (List.nodup_range' _ _)
      (by rw [List.mem_range'_1]; omega)

/-- Witness for C1 at the spec's own example: `ParallelizeArray(0, 100, f)`
with 4 threads touches exactly the indices `0..99`, each once. -/
theorem C1_parallelizeArray_balanced_partition_witness :
    ParallelizeArrayInvocations 0 100 4 = List.range' 0 100 :=
  (C1_parallelizeArray_balanced_partition 0 100 4 (by decide) (by decide)).2.2.2.2.2.2.1

/-- C8: an empty range (`lastIndexPlus1 = firstIndex`, total 0) is a legal
no-op of `ParallelizeArray` returning immediately with no functor
invocation, while a malformed range (`lastIndexPlus1 < firstIndex`) is
detected synchronously before any dispatch and surfaced as `InvalidRange`
with no partial work performed. -/
theorem C8_parallelizeArray_empty_and_invalid_range (first lastPlus1 T : Nat) :
    (lastPlus1 = first → ParallelizeArray first lastPlus1 T = .ok [])
    ∧ (lastPlus1 < first → ParallelizeArray first lastPlus1 T = .error .InvalidRange) := by
  constructor
  · intro h
    subst h
    unfold ParallelizeArray
    rw [if_neg (lt_irrefl _), parallelizeArrayInvocations_empty]
  · intro h
    unfold ParallelizeArray
    rw [if_pos h]

/-- Witness for C8: the empty range `[5, 5)` is a no-op and the malformed
range `[5, 3)` raises `InvalidRange`. -/
theorem C8_parallelizeArray_empty_and_invalid_range_witness :
    ParallelizeArray 5 5 2 = .ok [] ∧ ParallelizeArray 5 3 2 = .error .InvalidRange :=
  ⟨(C8_parallelizeArray_empty_and_invalid_range 5 5 2).1 rfl,
   (C8_parallelizeArray_empty_and_invalid_range 5 3 2).2 (by decide)⟩

/-- C5 counterexample: the claim names `TaskLibrary` as one of the three
recognized backend names, but the in-source `ThreaderTypeToString` uses
`"TBB"` for that backend and never produces `"TaskLibrary"`; the round-trip
at `"TaskLibrary"` yields `"Unknown"`, not `"TaskLibrary"`. -/
theorem C5_taskLibrary_counterexample :
    ThreaderTypeToString (ThreaderTypeFromString "TaskLibrary") = "Unknown"
    ∧ ("Unknown" : String) ≠ "TaskLibrary"
    ∧ ∀ t : ThreaderType, ThreaderTypeToString t ≠ "TaskLibrary" := by
  refine ⟨by decide, by decide, ?_⟩
  intro t
  cases t <;> decide

/-- C5 (amended): the three recognized backend names are `"Platform"`,
`"Pool"` and `"TBB"`; for each of them the string/enum conversion
round-trips, any unrecognized name maps to `Unknown`, and
`ThreaderTypeToString(Unknown)` is the fixed sentinel `"Unknown"`, distinct
from the three known names. -/
theorem C5_threaderType_roundTrip (s : String) :
    (s = "Platform" ∨ s = "Pool" ∨ s = "TBB" →
      ThreaderTypeToString (ThreaderTypeFromString s) = s)
    ∧ (s ≠ "Platform" → s ≠ "Pool" → s ≠ "TBB" →
      ThreaderTypeFromString s = .Unknown)
    ∧ ThreaderTypeToString .Unknown = "Unknown"
    ∧ ("Unknown" : String) ≠ "Platform"
    ∧ ("Unknown" : String) ≠ "Pool"
    ∧ ("Unknown" : String) ≠ "TBB" := by
  refine ⟨?_, ?_, rfl, by decide, by decide, by decide⟩
  · rintro (rfl | rfl | rfl) <;> rfl
  · intro h1 h2 h3
    simp [ThreaderTypeFromString, h1, h2, h3]

/-- Witness for C5: the round-trip at `"Pool"` and the `Unknown` fallback at
an unrecognized name. -/
theorem C5_threaderType_roundTrip_witness :
    ThreaderTypeToString (ThreaderTypeFromString "Pool") = "Pool"
    ∧ ThreaderTypeFromString "NotABackend" = ThreaderType.Unknown :=
  ⟨(C5_threaderType_roundTrip "Pool").1 (Or.inr (Or.inl rfl)),
   (C5_threaderType_roundTrip "NotABackend").2.1 (by decide) (by decide) (by decide)⟩

/-- C4 counterexample: two concrete divergences from the claim.  First, the
claim quantifies over every maximum `m ≥ 1`, but
`SetGlobalMaximumNumberOfThreads` clamps its argument to
`[1, ITK_MAX_THREADS]` (header lines 84-88), so for `m = v = 129` the
effective thread count at execution is `128`, not `clamp(129, 1, 129) =
129`.  Second, the claim's "in either order" fails when a smaller maximum
is in force at assignment time: with the maximum previously set to 2,
`SetNumberOfThreads(3)` stores `clamp(3, 1, 2) = 2` (header lines 78-81),
and a later `SetGlobalMaximumNumberOfThreads(4)` does not restore the
request, so execution uses 2, not `clamp(3, 1, 4) = 3`. -/
theorem C4_hardLimit_counterexample :
    (effectiveThreadCount (SetGlobalMaximumNumberOfThreads (initGlobals 1) 129)
        (SetNumberOfThreads (SetGlobalMaximumNumberOfThreads (initGlobals 1) 129) 129)
      = 128
     ∧ clampNat 129 1 129 = 129)
    ∧ (effectiveThreadCount
        (SetGlobalMaximumNumberOfThreads
          (SetGlobalMaximumNumberOfThreads (initGlobals 1) 2) 4)
        (SetNumberOfThreads (SetGlobalMaximumNumberOfThreads (initGlobals 1) 2) 3)
      = 2
     ∧ clampNat 3 1 4 = 3) := by
  exact ⟨⟨rfl, rfl⟩, rfl, rfl⟩

/-- C4 (amended): for every requested count `v`, every maximum `m` with
`1 ≤ m ≤ ITK_MAX_THREADS`, and every prior configuration state, after
`SetGlobalMaximumNumberOfThreads(m)` followed by `SetNumberOfThreads(v)`,
in that order, the effective thread count used at execution time equals
`clamp(v, 1, m)`; a maximum above the platform ceiling is itself clamped to
`ITK_MAX_THREADS` first, and in the opposite order the maximum in force at
assignment time can clip the stored count. -/
theorem C4_effective_clamp (g : Globals) (v m : Nat)
    (hm1 : 1 ≤ m) (hm2 : m ≤ ITK_MAX_THREADS) :
    effectiveThreadCount (SetGlobalMaximumNumberOfThreads g m)
        (SetNumberOfThreads (SetGlobalMaximumNumberOfThreads g m) v)
      = clampNat v 1 m := by
  unfold effectiveThreadCount SetNumberOfThreads SetGlobalMaximumNumberOfThreads clampNat
  unfold ITK_MAX_THREADS at *
  dsimp only
  omega

/-- Witness for C4 (amended) at `m = 4`, `v = 10` from a concrete prior
state: the effective thread count is `clamp(10, 1, 4)`. -/
theorem C4_effective_clamp_witness :
    effectiveThreadCount (SetGlobalMaximumNumberOfThreads (initGlobals 1) 4)
        (SetNumberOfThreads (SetGlobalMaximumNumberOfThreads (initGlobals 1) 4) 10)
      = clampNat 10 1 4 :=
  C4_effective_clamp (initGlobals 1) 10 4 (by decide) (by decide)

/-- C7 counterexample: the claim says `SetNumberOfThreads(v)` stores the
requested value and `GetNumberOfThreads()` then returns it, but per the
header's documented contract (lines 78-81) assignment clamps to
`[1, m_GlobalMaximumNumberOfThreads]`: with the maximum set to 4,
requesting 10 stores 4, not 10. -/
theorem C7_assignment_clamp_counterexample :
    GetNumberOfThreads
        (SetNumberOfThreads (SetGlobalMaximumNumberOfThreads (initGlobals 1) 4) 10) = 4
    ∧ (4 : Nat) ≠ 10 := by
  constructor <;> decide

/-- C7 (amended): `SetNumberOfThreads(v)` never hard-fails and stores
`clamp(v, 1, currentGlobalMaximum)` at assignment time;
`GetNumberOfThreads()` returns that stored clamped value (so the requested
value is returned verbatim exactly when it already lies in range), and at
the start of execution the stored value is clamped again against the
then-current global maximum, which may have changed since assignment. -/
theorem C7_setNumberOfThreads_stores_clamped (g : Globals) (v m2 : Nat) :
    GetNumberOfThreads (SetNumberOfThreads g v)
      = clampNat v 1 g.globalMaximumNumberOfThreads
    ∧ (1 ≤ v → v ≤ g.globalMaximumNumberOfThreads →
        GetNumberOfThreads (SetNumberOfThreads g v) = v)
    ∧ effectiveThreadCount (SetGlobalMaximumNumberOfThreads g m2)
        (SetNumberOfThreads g v)
      = clampNat (GetNumberOfThreads (SetNumberOfThreads g v)) 1
          (clampNat m2 1 ITK_MAX_THREADS) := by
  refine ⟨rfl, ?_, rfl⟩
  intro h1 h2
  unfold GetNumberOfThreads SetNumberOfThreads clampNat
  omega

/-- Witness for C7 (amended): requesting 10 under maximum 4 stores and
returns `clamp(10, 1, 4) = 4`; an in-range request (3) is stored verbatim. -/
theorem C7_setNumberOfThreads_stores_clamped_witness :
    GetNumberOfThreads (SetNumberOfThreads (SetGlobalMaximumNumberOfThreads (initGlobals 1) 4) 10)
      = clampNat 10 1 (SetGlobalMaximumNumberOfThreads (initGlobals 1) 4).globalMaximumNumberOfThreads
    ∧ GetNumberOfThreads (SetNumberOfThreads (initGlobals 1) 3) = 3 :=
  ⟨(C7_setNumberOfThreads_stores_clamped (SetGlobalMaximumNumberOfThreads (initGlobals 1) 4) 10 1).1,
   (C7_setNumberOfThreads_stores_clamped (initGlobals 1) 3 1).2.1 (by decide) (by decide)⟩

/-- Witness for C3: with three workers of which the one with logical id 1
raises a standard-library error, `SingleMethodExecute` does not return
success. -/
theorem C3_singleMethodExecute_first_failure_witness :
    SingleMethodExecute 3
      (fun i => if i = 1 then ThreadExitCode.STD_EXCEPTION else ThreadExitCode.SUCCESS)
      ≠ .ok () :=
  (C3_singleMethodExecute_first_failure 3
    (fun i => if i = 1 then ThreadExitCode.STD_EXCEPTION else ThreadExitCode.SUCCESS)
    ⟨1, by decide, by decide⟩).2.2.2

/-- C10: a freshly constructed executor instance, before any
`SetNumberOfThreads` call, reports `GetNumberOfThreads()` equal to the
global default number of threads at construction time (header lines
266-275: `m_NumberOfThreads` is initialized to
`m_GlobalDefaultNumberOfThreads` by the constructor); the copy is by value,
so a later change of the global default is seen only by instances
constructed after that change. -/
theorem C10_construction_uses_global_default (g : Globals) (v : Nat) :
    GetNumberOfThreads (constructNumberOfThreads g) = g.globalDefaultNumberOfThreads
    ∧ GetNumberOfThreads (constructNumberOfThreads (SetGlobalDefaultNumberOfThreads g v))
      = clampNat v 1 g.globalMaximumNumberOfThreads :=
  ⟨rfl, rfl⟩

/-- C2: for every region of dimension at least 1 and every thread count,
the sub-regions produced by `ParallelizeImageRegion`'s greedy longest-axis
bisection are pairwise disjoint, their union equals the original region's
index set exactly (no gaps, no overlaps), and the sum of their pixel counts
equals the product of all size components (`pixelCount`); each sub-region of
the produced list is handed to the functor exactly once by its worker. -/
theorem C2_parallelizeImageRegion_tiling (r : Region) (T : Nat)
    (hdim : 1 ≤ r.length) :
    PairwiseDisjoint (ParallelizeImageRegionChunks r T)
    ∧ (∀ p, memUnion (ParallelizeImageRegionChunks r T) p ↔ regMem p r)
    ∧ ((ParallelizeImageRegionChunks r T).map pixelCount).sum = pixelCount r := by
  unfold ParallelizeImageRegionChunks
  obtain ⟨hm, hd, hs⟩ := splitRegions_invariants T T [r]
  refine ⟨hd ?_, ?_, ?_⟩
  · unfold PairwiseDisjoint
    simp
  · intro p
    rw [hm p]
    unfold memUnion
    simp
  · rw [hs]
    simp

/-- Witness for C2 at the spec's own example: a 2D region of size (10, 7)
with thread count 3 is tiled into sub-regions whose pixel counts sum to
`pixelCount` of the region, which is 70. -/
theorem C2_parallelizeImageRegion_tiling_witness :
    ((ParallelizeImageRegionChunks [⟨0, 10⟩, ⟨0, 7⟩] 3).map pixelCount).sum
      = pixelCount [⟨0, 10⟩, ⟨0, 7⟩]
    ∧ pixelCount [⟨0, 10⟩, ⟨0, 7⟩] = 70 :=
  ⟨(C2_parallelizeImageRegion_tiling [⟨0, 10⟩, ⟨0, 7⟩] 3 (by decide)).2.2, rfl⟩

/-- C6: during a `ParallelizeArray` or `ParallelizeImageRegion` execution,
whatever the completion order of the work units (any permutation of the
run's per-unit increments), the trace of the shared progress counter is
monotonically non-decreasing and never exceeds the total declared at
dispatch time (the range length, resp. the region's pixel count), the
counter ends at the total, and the reported fraction sequence is
non-decreasing with final value 1 whenever the total is positive. -/
theorem C6_progress_monotone_bounded (first lastPlus1 T : Nat) (r : Region)
    (incsA incsR : List Nat)
    (hA : incsA.Perm (arrayRunIncrements first lastPlus1 T))
    (hR : incsR.Perm (regionRunIncrements r T))
    (hT : 1 ≤ T) :
    incsA.sum = lastPlus1 - first
    ∧ List.Chain' (· ≤ ·) (progressTrace 0 incsA)
    ∧ (∀ p ∈ progressTrace 0 incsA, p ≤ lastPlus1 - first)
    ∧ (progressTrace 0 incsA).getLast? = some (lastPlus1 - first)
    ∧ (0 < lastPlus1 - first →
        List.Chain' (· ≤ ·)
          ((progressTrace 0 incsA).map (fun q : Nat => (q : ℚ) / ((lastPlus1 - first : Nat) : ℚ)))
        ∧ ((progressTrace 0 incsA).map
            (fun q : Nat => (q : ℚ) / ((lastPlus1 - first : Nat) : ℚ))).getLast? = some 1)
    ∧ incsR.sum = pixelCount r
    ∧ List.Chain' (· ≤ ·) (progressTrace 0 incsR)
    ∧ (∀ p ∈ progressTrace 0 incsR, p ≤ pixelCount r)
    ∧ (progressTrace 0 incsR).getLast? = some (pixelCount r)
    ∧ (0 < pixelCount r →
        List.Chain' (· ≤ ·)
          ((progressTrace 0 incsR).map (fun q : Nat => (q : ℚ) / (pixelCount r)))
        ∧ ((progressTrace 0 incsR).map
            (fun q : Nat => (q : ℚ) / (pixelCount r))).getLast? = some 1) := by
  have hsumA : incsA.sum = lastPlus1 - first := by
    rw [hA.sum_eq]
    exact arrayRunIncrements_sum first lastPlus1 T hT
  have hsumR : incsR.sum = pixelCount r := by
    rw [hR.sum_eq]
    exact regionRunIncrements_sum r T
  obtain ⟨a1, a2, a3, a4⟩ := progressTrace_props incsA (lastPlus1 - first) hsumA
  obtain ⟨b1, b2, b3, b4⟩ := progressTrace_props incsR (pixelCount r) hsumR
  exact ⟨hsumA, a1, a2, a3, a4, hsumR, b1, b2, b3, b4⟩

/-- Witness for C6 at the spec's own example `ParallelizeArray(0, 50)` (with
4 threads) and the region example of size (10, 7): the counter trace ends
exactly at the declared total. -/
theorem C6_progress_monotone_bounded_witness :
    (progressTrace 0 (arrayRunIncrements 0 50 4)).getLast? = some (50 - 0)
    ∧ (progressTrace 0 (regionRunIncrements [⟨0, 10⟩, ⟨0, 7⟩] 3)).getLast?
        = some (pixelCount [⟨0, 10⟩, ⟨0, 7⟩]) :=
  ⟨(C6_progress_monotone_bounded 0 50 4 [⟨0, 10⟩, ⟨0, 7⟩]
      (arrayRunIncrements 0 50 4) (regionRunIncrements [⟨0, 10⟩, ⟨0, 7⟩] 4)
      (List.Perm.refl _) (List.Perm.refl _) (by decide)).2.2.2.1,
   (C6_progress_monotone_bounded 0 50 3 [⟨0, 10⟩, ⟨0, 7⟩]
      (arrayRunIncrements 0 50 3) (regionRunIncrements [⟨0, 10⟩, ⟨0, 7⟩] 3)
      (List.Perm.refl _) (List.Perm.refl _) (by decide)).2.2.2.2.2.2.2.2.1⟩

/-- C9: in a `ParallelizeArray` (or, by the same `callingThread` field of
`RegionAndCallback`, `ParallelizeImageRegion`) execution, a worker whose
thread identity differs from the calling thread recorded at dispatch never
touches the progress consumer, whatever chunk it processes and whatever the
counter state; hence at most the one designated thread — the calling
thread — ever reports to the consumer. -/
theorem C9_only_calling_thread_touches_consumer (chunk : List Nat)
    (tid ct : Nat) (fp : Bool) (total pIn : Nat) (h : tid ≠ ct) :
    (ArrayWorkerRun chunk tid ct fp total pIn).2 = []
    ∧ ∀ (chunk2 : List Nat) (tid2 pIn2 : Nat),
        (ArrayWorkerRun chunk2 tid2 ct fp total pIn2).2 ≠ [] → tid2 = ct := by
  refine ⟨arrayWorkerRun_silent chunk tid ct fp total pIn h, ?_⟩
  intro chunk2 tid2 pIn2 hne
  by_contra hne2
  exact hne (arrayWorkerRun_silent chunk2 tid2 ct fp total pIn2 hne2)

/-- Witness for C9: a worker with thread identity 5 processing chunk
`[0, 1]` of a call whose calling thread is 7 emits no progress reports even
with a consumer present. -/
theorem C9_only_calling_thread_touches_consumer_witness :
    (ArrayWorkerRun [0, 1] 5 7 true 2 0).2 = [] :=
  (C9_only_calling_thread_touches_consumer [0, 1] 5 7 true 2 0 (by decide)).1

end ITKMT
